import Mathlib

/-!
Verification of the RAG pipeline core of this repository: the document
chunking algorithm (`lib/rag/data-processor.ts`), the retrieval and answer
composition layer (`lib/rag/assistant.ts`), and the conversation store of
the Gemini provider (`lib/llm/gemini.ts`).

Text is modelled as `List Char`; cursors are integers (`ℤ`) because the
chunking cursor in the source can go negative; JavaScript string
primitives (`substring`, `lastIndexOf`, `trim`) are modelled by explicit
clamping functions below.
-/

/-- Characters removed by JavaScript `String.prototype.trim`
(WhiteSpace and LineTerminator code points; the common ones). -/
def isJsWhitespace (c : Char) : Bool :=
  c = ' ' || c = '\t' || c = '\n' || c = '\r' ||
  c = Char.ofNat 0x0b || c = Char.ofNat 0x0c ||
  c = Char.ofNat 0xa0 || c = Char.ofNat 0xfeff ||
  c = Char.ofNat 0x2028 || c = Char.ofNat 0x2029

/-- JavaScript `String.prototype.trim`: strip leading and trailing
whitespace. -/
def jsTrim (s : List Char) : List Char :=
  ((s.dropWhile isJsWhitespace).reverse.dropWhile isJsWhitespace).reverse

/-- JavaScript `String.prototype.substring(a, b)`: both arguments are
clamped into `[0, length]` and swapped if out of order. -/
def jsSubstring (s : List Char) (a b : ℤ) : List Char :=
  let x := (min (max a 0) (s.length : ℤ)).toNat
  let y := (min (max b 0) (s.length : ℤ)).toNat
  (s.drop (min x y)).take (max x y - min x y)

/-- Whether the pattern `pat` occurs in `s` starting at position `i`. -/
def matchesAt (s pat : List Char) (i : ℕ) : Bool :=
  decide ((s.drop i).take pat.length = pat)

/-- Largest `i < n` with `p i`, if any. -/
def lastBelow (p : ℕ → Bool) : ℕ → Option ℕ
  | 0 => none
  | n + 1 => if p n then some n else lastBelow p n

/-- JavaScript `String.prototype.lastIndexOf(pat)`: index of the last
occurrence of `pat` in `s`, or `-1` when there is none. -/
def jsLastIndexOf (s pat : List Char) : ℤ :=
  match lastBelow (matchesAt s pat) (s.length + 1) with
  | some i => (i : ℤ)
  | none => -1

/-- Document as fed to `DataProcessor.chunkDocument` (the open metadata
map is not modelled; no claim concerns it). -/
structure Document where
  id : String
  content : List Char

/-- Chunk record produced by `DataProcessor.chunkDocument`.
`totalChunks` models the `totalChunks` metadata entry that the source
back-fills once the whole document has been chunked. -/
structure ChunkedDocument where
  id : String
  content : List Char
  chunkIndex : ℕ
  originalDocId : String
  totalChunks : ℕ
deriving DecidableEq

/-- The boundary-snapping step of `DataProcessor.chunkDocument` (source
lines 81-98), applied to a window that ends strictly before the end of
the content.  The JavaScript comparison `breakPoint > this.chunkSize / 2`
is real-number division; for the integer `breakPoint` it is equivalent to
`2 * breakPoint > chunkSize`, which is how it is written here. -/
def windowTruncate (chunkSize : ℕ) (chunk : List Char) : List Char :=
  let lastPeriod := jsLastIndexOf chunk ['.', ' ']
  let lastNewline := jsLastIndexOf chunk ['\n']
  let breakPoint := max lastPeriod lastNewline
  if 2 * breakPoint > (chunkSize : ℤ) then
    jsSubstring chunk 0 (breakPoint + 1)
  else
    let lastSpace := jsLastIndexOf chunk [' ']
    if 2 * lastSpace > (chunkSize : ℤ) then
      jsSubstring chunk 0 lastSpace
    else
      chunk

/-- The candidate window `content.substring(startIndex, endIndex)` with
`endIndex = min(startIndex + chunkSize, content.length)` (source lines
76-79). -/
def windowRaw (chunkSize : ℕ) (content : List Char) (startIndex : ℤ) : List Char :=
  jsSubstring content startIndex (min (startIndex + (chunkSize : ℤ)) (content.length : ℤ))

/-- The chunk text of one loop iteration, before the final `trim`:
the raw window, boundary-snapped only when the window ends strictly
before the end of the content (source lines 76-98). -/
def emittedWindow (chunkSize : ℕ) (content : List Char) (startIndex : ℤ) : List Char :=
  if min (startIndex + (chunkSize : ℤ)) (content.length : ℤ) < (content.length : ℤ) then
    windowTruncate chunkSize (windowRaw chunkSize content startIndex)
  else
    windowRaw chunkSize content startIndex

/-- The advance rule `startIndex += chunk.length - this.chunkOverlap`
(source line 115); `chunk` there is the boundary-snapped window before
trimming. -/
def nextCursor (chunkSize overlap : ℕ) (content : List Char) (startIndex : ℤ) : ℤ :=
  startIndex + ((emittedWindow chunkSize content startIndex).length : ℤ) - (overlap : ℤ)

/-- The `while (startIndex < content.length)` loop of
`DataProcessor.chunkDocument`, with explicit fuel: `none` means the fuel
ran out while the loop condition still held. -/
def chunkLoop (chunkSize overlap : ℕ) (docId : String) (content : List Char) :
    ℕ → ℤ → ℕ → List ChunkedDocument → Option (List ChunkedDocument)
  | fuel, startIndex, chunkIndex, acc =>
    if startIndex < (content.length : ℤ) then
      match fuel with
      | 0 => none
      | fuel + 1 =>
        let piece := emittedWindow chunkSize content startIndex
        let c : ChunkedDocument :=
          { id := docId ++ "_chunk_" ++ toString chunkIndex
            content := jsTrim piece
            chunkIndex := chunkIndex
            originalDocId := docId
            totalChunks := 0 }
        chunkLoop chunkSize overlap docId content fuel
          (nextCursor chunkSize overlap content startIndex) (chunkIndex + 1) (acc ++ [c])
    else
      some acc

/-- `DataProcessor.chunkDocument` (source lines 68-125): run the loop
from cursor 0, then back-fill `totalChunks` into every chunk. -/
def chunkDocument (chunkSize overlap : ℕ) (doc : Document) (fuel : ℕ) :
    Option (List ChunkedDocument) :=
  (chunkLoop chunkSize overlap doc.id doc.content fuel 0 0 []).map
    (fun chunks => chunks.map fun c => { c with totalChunks := chunks.length })

/-! ## Spec-side statement of the boundary-snapping rule (for claim C4)

The following definitions transcribe the claim's wording, not the code:
they are compared against `windowTruncate` (translated from the code)
to settle C4. -/

/-- A sentence-ending boundary in the claim's sense: an occurrence of
the two-character sequence `". "` (position of the period) or of a
newline. -/
def sentenceBoundaryAt (s : List Char) (i : ℕ) : Prop :=
  (s[i]? = some '.' ∧ s[i + 1]? = some ' ') ∨ s[i]? = some '\n'

instance (s : List Char) (i : ℕ) : Decidable (sentenceBoundaryAt s i) := by
  unfold sentenceBoundaryAt
  exact inferInstance

/-- The claim's truncation rule as stated: truncate right after the last
sentence-ending boundary lying AT OR AFTER the window midpoint
(`i ≥ chunkSize/2`, i.e. `2*i ≥ chunkSize`); otherwise at the last
space at or after the midpoint; otherwise keep the full window. -/
def specTruncateAtOrAfter (chunkSize : ℕ) (s : List Char) : List Char :=
  match lastBelow
      (fun i => decide (sentenceBoundaryAt s i) && decide (2 * i ≥ chunkSize)) s.length with
  | some b => s.take (b + 1)
  | none =>
    match lastBelow (fun i => decide (s[i]? = some ' ') && decide (2 * i ≥ chunkSize))
        s.length with
    | some sp => s.take sp
    | none => s

/-- The amended truncation rule: as `specTruncateAtOrAfter` but with the
boundary STRICTLY AFTER the midpoint (`i > chunkSize/2` over the reals,
i.e. `2*i > chunkSize`), which is what the code's comparison does. -/
def specTruncateStrictlyAfter (chunkSize : ℕ) (s : List Char) : List Char :=
  match lastBelow
      (fun i => decide (sentenceBoundaryAt s i) && decide (2 * i > chunkSize)) s.length with
  | some b => s.take (b + 1)
  | none =>
    match lastBelow (fun i => decide (s[i]? = some ' ') && decide (2 * i > chunkSize))
        s.length with
    | some sp => s.take sp
    | none => s

/-! ## Conversation store and Gemini provider (`lib/llm/gemini.ts`) -/

/-- Message roles of the LLM abstraction (`lib/llm/provider.ts`). -/
inductive Role
  | user
  | assistant
  | system
deriving DecidableEq

/-- A conversation turn (`Message` in `lib/llm/provider.ts`). -/
structure Message where
  role : Role
  content : String
deriving DecidableEq

/-- The `conversationHistory : Map<string, Message[]>` field of
`GeminiProvider`: absent keys map to `none`. -/
def ConversationMap := String → Option (List Message)

/-- The freshly constructed provider's empty map. -/
def emptyConversationMap : ConversationMap := fun _ => none

/-- JavaScript `Map.prototype.set`. -/
def mapSet (m : ConversationMap) (id : String) (msgs : List Message) : ConversationMap :=
  fun k => if k = id then some msgs else m k

/-- JavaScript `Map.prototype.delete`. -/
def mapDelete (m : ConversationMap) (id : String) : ConversationMap :=
  fun k => if k = id then none else m k

namespace GeminiProvider

/-- `GeminiProvider.getHistory`: the stored turns, or `[]` when the map
has no entry (`this.conversationHistory.get(conversationId) || []`). -/
def getHistory (st : ConversationMap) (conversationId : String) : List Message :=
  (st conversationId).getD []

/-- `GeminiProvider.clearHistory`:
`this.conversationHistory.delete(conversationId)`. -/
def clearHistory (st : ConversationMap) (conversationId : String) : ConversationMap :=
  mapDelete st conversationId

/-- `GeminiProvider.addToHistory`: read the stored turns (or `[]`), push
one message, store the result back. -/
def addToHistory (st : ConversationMap) (conversationId : String) (message : Message) :
    ConversationMap :=
  mapSet st conversationId (getHistory st conversationId ++ [message])

/-- The request format sent to the external Gemini chat API. -/
structure GeminiContent where
  role : String
  text : String

/-- Conversion of stored messages to the Gemini chat format
(`role === 'assistant' ? 'model' : 'user'`). -/
def toGeminiFormat (msgs : List Message) : List GeminiContent :=
  msgs.map fun m => ⟨if m.role = Role.assistant then "model" else "user", m.content⟩

/-- `GeminiProvider.generateResponse` (source lines 21-60).  The external
model call (`chat.sendMessage` / `model.generateContent`) is opaque; its
reply is the `reply` parameter.  Returns the reply together with the
updated conversation map. -/
def generateResponse (reply prompt : String) (conversationId : Option String)
    (st : ConversationMap) : String × ConversationMap :=
  match conversationId with
  | some cid =>
    let st1 := addToHistory st cid ⟨Role.user, prompt⟩
    let _chatHistory := toGeminiFormat ((getHistory st1 cid).dropLast)
    let st2 := addToHistory st1 cid ⟨Role.assistant, reply⟩
    (reply, st2)
  | none => (reply, st)

/-- `GeminiProvider.generateResponseWithHistory` (source lines 65-99):
when a conversation id is given, the stored history is first set to a
copy of the caller-supplied messages, and after the external call the
assistant reply is appended. -/
def generateResponseWithHistory (reply : String) (messages : List Message)
    (conversationId : Option String) (st : ConversationMap) : String × ConversationMap :=
  let st1 := match conversationId with
    | some cid => mapSet st cid messages
    | none => st
  let _chatHistory := toGeminiFormat messages.dropLast
  let st2 := match conversationId with
    | some cid => addToHistory st1 cid ⟨Role.assistant, reply⟩
    | none => st1
  (reply, st2)

end GeminiProvider

/-! ## Retrieval and answer composition (`lib/rag/assistant.ts`,
whose Pinecone-direct variant is among the unnamed source files) -/

/-- One match returned by the external Pinecone query: `score` may be
absent, as may the whole metadata record.  Metadata is an association
list of string fields (the `content` field holds the chunk text). -/
structure PineconeMatch where
  id : String
  score : Option ℚ
  metadata : Option (List (String × String))
deriving DecidableEq

/-- `QueryResult` of `lib/rag/assistant.ts`. -/
structure QueryResult where
  id : String
  score : ℚ
  content : String
  metadata : List (String × String)
deriving DecidableEq

/-- `AssistantResponse` of `lib/rag/assistant.ts`. -/
structure AssistantResponse where
  answer : String
  sources : List QueryResult
  conversationId : Option String

namespace Assistant

/-- `Assistant.query` (source lines 44-60 and the Pinecone-direct
variant): the external index round trip is opaque, so its response is
the input; `queryResponse.matches || []` is the `getD []`, and each
match is formatted with `score: match.score || 0`,
`content: (match.metadata?.content as string) || ''`,
`metadata: match.metadata || {}`. -/
def query (queryResponseMatches : Option (List PineconeMatch)) : List QueryResult :=
  (queryResponseMatches.getD []).map fun m =>
    { id := m.id
      score := m.score.getD 0
      content := (m.metadata.bind fun md => List.lookup "content" md).getD ""
      metadata := m.metadata.getD [] }

/-- The per-source labels of the context block:
`[Source N] content`, `N` 1-based, in retrieval order. -/
def contextParts (sources : List QueryResult) : List String :=
  sources.enum.map fun p => "[Source " ++ toString (p.1 + 1) ++ "] " ++ p.2.content

/-- The context block of `Assistant.ask` / `Assistant.askWithHistory`:
the labelled passages joined by blank lines. -/
def buildContext (sources : List QueryResult) : String :=
  String.intercalate "\n\n" (contextParts sources)

/-- `Assistant.buildPrompt` (source lines 142-151). -/
def buildPrompt (question context : String) : String :=
  "You are a helpful assistant. Answer the following question based on the provided context. If the answer cannot be found in the context, say so.\n\nContext:\n"
    ++ context ++ "\n\nQuestion: " ++ question ++ "\n\nAnswer:"

/-- The content of the system message built by `Assistant.askWithHistory`
(source lines 118-121). -/
def systemMessageContent (context : String) : String :=
  "You are a helpful assistant. Answer questions based on the following context:\n\n"
    ++ context ++ "\n\nIf the answer cannot be found in the context, say so."

/-- `Assistant.ask` (source lines 65-95): retrieve, build the context
block and the prompt, call `generateResponse`, return the answer with
its sources.  Returns the response together with the updated
conversation map of the provider. -/
def ask (reply question : String) (queryResponseMatches : Option (List PineconeMatch))
    (conversationId : Option String) (st : ConversationMap) :
    AssistantResponse × ConversationMap :=
  let sources := query queryResponseMatches
  let context := buildContext sources
  let prompt := buildPrompt question context
  let r := GeminiProvider.generateResponse reply prompt conversationId st
  ({ answer := r.1, sources := sources, conversationId := conversationId }, r.2)

/-- `Assistant.askWithHistory` (source lines 100-137): identical
retrieval and context building, then a system message holding the
context is prepended to the caller-supplied messages and the combined
sequence is sent to `generateResponseWithHistory`. -/
def askWithHistory (reply _question : String)
    (queryResponseMatches : Option (List PineconeMatch)) (messages : List Message)
    (conversationId : Option String) (st : ConversationMap) :
    AssistantResponse × ConversationMap :=
  let sources := query queryResponseMatches
  let context := buildContext sources
  let systemMessage : Message := ⟨Role.system, systemMessageContent context⟩
  let allMessages := systemMessage :: messages
  let r := GeminiProvider.generateResponseWithHistory reply allMessages conversationId st
  ({ answer := r.1, sources := sources, conversationId := conversationId }, r.2)

end Assistant

/-! ## Helper lemmas about the chunking loop -/

theorem jsSubstring_length_le (s : List Char) (a b : ℤ) :
    (jsSubstring s a b).length ≤ s.length := by
  unfold jsSubstring
  simp only [List.length_take, List.length_drop]
  omega

theorem windowTruncate_length_le (cs : ℕ) (ch : List Char) :
    (windowTruncate cs ch).length ≤ ch.length := by
  unfold windowTruncate
  dsimp only
  split
  · exact jsSubstring_length_le ..
  · split
    · exact jsSubstring_length_le ..
    · exact le_refl _

theorem windowRaw_length_le (cs : ℕ) (content : List Char) (start : ℤ) :
    (windowRaw cs content start).length ≤ content.length :=
  jsSubstring_length_le ..

theorem emittedWindow_length_le (cs : ℕ) (content : List Char) (start : ℤ) :
    (emittedWindow cs content start).length ≤ content.length := by
  unfold emittedWindow
  split
  · exact le_trans (windowTruncate_length_le ..) (windowRaw_length_le ..)
  · exact windowRaw_length_le ..

/-- When the whole content is no longer than the overlap, every loop
iteration advances the cursor by `chunk.length - overlap ≤ 0`, so the
cursor never reaches the content length and the loop consumes any
amount of fuel without returning. -/
theorem chunkLoop_none_of_short (cs ov : ℕ) (docId : String) (content : List Char)
    (hlen : content.length ≤ ov) :
    ∀ (fuel : ℕ) (start : ℤ) (idx : ℕ) (acc : List ChunkedDocument),
      start < (content.length : ℤ) →
      chunkLoop cs ov docId content fuel start idx acc = none := by
  intro fuel
  induction fuel with
  | zero =>
    intro start idx acc h
    unfold chunkLoop
    rw [if_pos h]
  | succ n ih =>
    intro start idx acc h
    unfold chunkLoop
    rw [if_pos h]
    apply ih
    have hp : (emittedWindow cs content start).length ≤ content.length :=
      emittedWindow_length_le ..
    unfold nextCursor
    omega

/-! ## Theorems: chunking termination and shape (C1, C2) -/

/-- C1: the chunking loop does NOT terminate under the claimed
preconditions.  With the repository defaults `chunkSize = 1000`,
`overlap = 200` (which satisfy `chunkSize > 0` and
`0 ≤ overlap < chunkSize`) and the non-empty document content `"abc"`,
the cursor never reaches the content length: the loop returns no result
no matter how much fuel it is given. -/
theorem c1_chunk_loop_diverges :
    (0 < 1000 ∧ 200 < 1000)
    ∧ ∀ fuel : ℕ,
        chunkDocument 1000 200 { id := "doc1", content := "abc".toList } fuel = none := by
  refine ⟨⟨by norm_num, by norm_num⟩, fun fuel => ?_⟩
  have h := chunkLoop_none_of_short 1000 200 "doc1" ['a', 'b', 'c'] (by decide)
    fuel 0 0 [] (by decide)
  simp [chunkDocument, h]

/-- C2: on content shorter than `chunkSize` the code does NOT produce
exactly one chunk: with the defaults `chunkSize = 1000`,
`overlap = 200`, chunking the two-character content `"hi"` never
returns (for every amount of fuel the loop is still running), while the
empty-content half of the claim does hold: empty content yields zero
chunks.  (With `overlap = 0` the loop does behave as claimed: one chunk
holding the trimmed content — last conjunct.) -/
theorem c2_short_content_diverges :
    ("hi".toList.length < 1000)
    ∧ (∀ fuel : ℕ,
        chunkDocument 1000 200 { id := "doc1", content := "hi".toList } fuel = none)
    ∧ (∀ fuel : ℕ,
        chunkDocument 1000 200 { id := "doc1", content := "".toList } fuel = some [])
    ∧ chunkDocument 1000 0 { id := "doc1", content := "hi".toList } 1
        = some [⟨"doc1_chunk_0", jsTrim "hi".toList, 0, "doc1", 1⟩] := by
  refine ⟨by decide, fun fuel => ?_, fun fuel => ?_, by decide⟩
  · have h := chunkLoop_none_of_short 1000 200 "doc1" ['h', 'i'] (by decide)
      fuel 0 0 [] (by decide)
    simp [chunkDocument, h]
  · unfold chunkDocument chunkLoop
    rw [if_neg (by decide)]
    rfl

/-! ## Slice lemmas for the advance rule -/

theorem jsSubstring_eq_of_bounds (s : List Char) (a b : ℤ)
    (ha : 0 ≤ a) (hab : a ≤ b) (hb : b ≤ (s.length : ℤ)) :
    jsSubstring s a b = (s.drop a.toNat).take (b.toNat - a.toNat) := by
  unfold jsSubstring
  dsimp only
  rw [max_eq_left ha, max_eq_left (le_trans ha hab), min_eq_left (le_trans hab hb),
    min_eq_left hb]
  have h5 : min a.toNat b.toNat = a.toNat := by omega
  have h6 : max a.toNat b.toNat = b.toNat := by omega
  rw [h5, h6]

theorem jsSubstring_zero_right (s : List Char) (e : ℤ) (he : 0 ≤ e) :
    jsSubstring s 0 e = s.take e.toNat := by
  unfold jsSubstring
  dsimp only
  have hx : (min (max (0:ℤ) 0) (s.length : ℤ)).toNat = 0 := by
    rw [max_self, min_eq_left (by positivity)]
    rfl
  have hy : (min (max e 0) (s.length : ℤ)).toNat = min e.toNat s.length := by
    rw [max_eq_left he]
    omega
  rw [hx, hy]
  rw [Nat.min_eq_left (Nat.zero_le _), Nat.max_eq_right (Nat.zero_le _), List.drop_zero,
    Nat.sub_zero]
  rw [List.take_eq_take]
  omega

theorem windowTruncate_eq_take (cs : ℕ) (ch : List Char) :
    ∃ k : ℕ, windowTruncate cs ch = ch.take k := by
  unfold windowTruncate
  dsimp only
  split
  · next h =>
    refine ⟨(max (jsLastIndexOf ch ['.', ' ']) (jsLastIndexOf ch ['\n']) + 1).toNat, ?_⟩
    exact jsSubstring_zero_right ch _ (by omega)
  · split
    · next h =>
      exact ⟨(jsLastIndexOf ch [' ']).toNat, jsSubstring_zero_right ch _ (by omega)⟩
    · exact ⟨ch.length, (List.take_length ch).symm⟩

theorem windowRaw_eq (cs : ℕ) (content : List Char) (start : ℤ)
    (h0 : 0 ≤ start) (h1 : start ≤ (content.length : ℤ)) :
    windowRaw cs content start
      = (content.drop start.toNat).take
          ((min (start + (cs:ℤ)) (content.length : ℤ)).toNat - start.toNat) := by
  unfold windowRaw
  exact jsSubstring_eq_of_bounds _ _ _ h0 (by omega) (by omega)

theorem emittedWindow_eq_take (cs : ℕ) (content : List Char) (start : ℤ) :
    ∃ k : ℕ, emittedWindow cs content start = (windowRaw cs content start).take k := by
  unfold emittedWindow
  split
  · exact windowTruncate_eq_take ..
  · exact ⟨(windowRaw cs content start).length, (List.take_length _).symm⟩

/-- Under a well-placed cursor, the emitted (untrimmed) window is the
contiguous slice of the content that starts at the cursor and has the
window's length, and that slice stays inside the content. -/
theorem emittedWindow_eq_drop_take (cs : ℕ) (content : List Char) (start : ℤ)
    (h0 : 0 ≤ start) (h1 : start ≤ (content.length : ℤ)) :
    emittedWindow cs content start
        = (content.drop start.toNat).take (emittedWindow cs content start).length
    ∧ start.toNat + (emittedWindow cs content start).length ≤ content.length := by
  obtain ⟨k, hk⟩ := emittedWindow_eq_take cs content start
  have hraw := windowRaw_eq cs content start h0 h1
  rw [hraw, List.take_take] at hk
  have hlen : (emittedWindow cs content start).length
      = min (min k ((min (start + (cs:ℤ)) (content.length : ℤ)).toNat - start.toNat))
          (content.length - start.toNat) := by
    rw [hk]
    simp [List.length_take, List.length_drop]
  constructor
  · conv_lhs => rw [hk]
    rw [List.take_eq_take]
    simp only [List.length_drop]
    omega
  · omega

/-- Pure list fact behind the overlap property: the last `ov` elements
of a `wlen`-slice taken at `sN` are the first `ov` elements of any
sufficiently long slice taken at `sN + wlen - ov`. -/
theorem overlap_slice_eq (l : List Char) (sN wlen ov w2 : ℕ)
    (h1 : ov ≤ wlen) (h3 : ov ≤ w2) :
    ((l.drop sN).take wlen).drop (wlen - ov)
      = ((l.drop (sN + wlen - ov)).take w2).take ov := by
  rw [List.drop_take, List.drop_drop, List.take_take]
  have hov : wlen - (wlen - ov) = ov := by omega
  have hmin : min ov w2 = ov := by omega
  have hidx : sN + (wlen - ov) = sN + wlen - ov := by omega
  rw [hov, hmin, hidx]

/-! ## Last-occurrence lemmas for the boundary-snapping rule -/

theorem lastBelow_eq_some (p : ℕ → Bool) :
    ∀ (n i : ℕ), lastBelow p n = some i →
      p i = true ∧ i < n ∧ ∀ j, j < n → p j = true → j ≤ i := by
  intro n
  induction n with
  | zero => intro i h; simp [lastBelow] at h
  | succ m ih =>
    intro i h
    unfold lastBelow at h
    by_cases hp : p m = true
    · rw [if_pos hp] at h
      simp only [Option.some.injEq] at h
      subst h
      exact ⟨hp, Nat.lt_succ_self _, fun j _ _ => by omega⟩
    · rw [if_neg hp] at h
      obtain ⟨h1, h2, h3⟩ := ih i h
      refine ⟨h1, by omega, fun j hj hpj => ?_⟩
      rcases Nat.lt_succ_iff_lt_or_eq.mp hj with hj' | hj'
      · exact h3 j hj' hpj
      · subst hj'
        exact absurd hpj hp

theorem lastBelow_eq_none (p : ℕ → Bool) :
    ∀ n, lastBelow p n = none → ∀ j, j < n → p j = false := by
  intro n
  induction n with
  | zero => intro _ j hj; omega
  | succ m ih =>
    intro h j hj
    unfold lastBelow at h
    by_cases hp : p m = true
    · rw [if_pos hp] at h
      cases h
    · rw [if_neg hp] at h
      rcases Nat.lt_succ_iff_lt_or_eq.mp hj with hj' | hj'
      · exact ih h j hj'
      · subst hj'
        exact Bool.eq_false_iff.mpr hp

theorem lastBelow_isSome (p : ℕ → Bool) (n j : ℕ) (hj : j < n) (hpj : p j = true) :
    ∃ i, lastBelow p n = some i := by
  cases h : lastBelow p n with
  | some i => exact ⟨i, rfl⟩
  | none =>
    have := lastBelow_eq_none p n h j hj
    rw [hpj] at this
    cases this

theorem take_len_one (m : List Char) (c : Char) : m.take 1 = [c] ↔ m[0]? = some c := by
  cases m <;> simp

theorem take_len_two (m : List Char) (c d : Char) :
    m.take 2 = [c, d] ↔ (m[0]? = some c ∧ m[1]? = some d) := by
  match m with
  | [] => simp
  | [x] => simp
  | x :: y :: t => simp

theorem matchesAt_single (s : List Char) (c : Char) (i : ℕ) :
    matchesAt s [c] i = true ↔ s[i]? = some c := by
  unfold matchesAt
  rw [decide_eq_true_eq]
  show (s.drop i).take 1 = [c] ↔ s[i]? = some c
  rw [take_len_one, List.getElem?_drop]
  simp

theorem matchesAt_pair (s : List Char) (c d : Char) (i : ℕ) :
    matchesAt s [c, d] i = true ↔ (s[i]? = some c ∧ s[i + 1]? = some d) := by
  unfold matchesAt
  rw [decide_eq_true_eq]
  show (s.drop i).take 2 = [c, d] ↔ _
  rw [take_len_two, List.getElem?_drop, List.getElem?_drop]
  simp

theorem matchesAt_lt_length (s pat : List Char) (i : ℕ) (hpat : pat ≠ [])
    (h : matchesAt s pat i = true) : i < s.length := by
  unfold matchesAt at h
  rw [decide_eq_true_eq] at h
  by_contra hi
  push_neg at hi
  rw [List.drop_eq_nil_of_le hi, List.take_nil] at h
  exact hpat h.symm

/-- Characterization of `jsLastIndexOf`: either there is no occurrence
and it is `-1`, or it is the largest occurrence position. -/
theorem jsLastIndexOf_spec (s pat : List Char) (hpat : pat ≠ []) :
    (jsLastIndexOf s pat = -1 ∧ ∀ j, matchesAt s pat j = false)
    ∨ (∃ i : ℕ, jsLastIndexOf s pat = (i : ℤ) ∧ matchesAt s pat i = true
        ∧ ∀ j, matchesAt s pat j = true → j ≤ i) := by
  unfold jsLastIndexOf
  cases h : lastBelow (matchesAt s pat) (s.length + 1) with
  | none =>
    left
    refine ⟨rfl, fun j => ?_⟩
    cases hmj : matchesAt s pat j with
    | false => rfl
    | true =>
      have hlt := matchesAt_lt_length s pat j hpat hmj
      have := lastBelow_eq_none _ _ h j (by omega)
      rw [hmj] at this
      cases this
  | some i =>
    right
    obtain ⟨h1, _, h3⟩ := lastBelow_eq_some _ _ _ h
    refine ⟨i, rfl, h1, fun j hj => ?_⟩
    exact h3 j (by have := matchesAt_lt_length s pat j hpat hj; omega) hj

/-- The maximum of two last-occurrence values is the last-occurrence
value of the disjunction of the two match predicates. -/
theorem lastVal_max (Q1 Q2 : ℕ → Bool) (r1 r2 : ℤ)
    (h1 : (r1 = -1 ∧ ∀ j, Q1 j = false)
        ∨ (∃ i : ℕ, r1 = (i : ℤ) ∧ Q1 i = true ∧ ∀ j, Q1 j = true → j ≤ i))
    (h2 : (r2 = -1 ∧ ∀ j, Q2 j = false)
        ∨ (∃ i : ℕ, r2 = (i : ℤ) ∧ Q2 i = true ∧ ∀ j, Q2 j = true → j ≤ i)) :
    (max r1 r2 = -1 ∧ ∀ j, (Q1 j || Q2 j) = false)
    ∨ (∃ i : ℕ, max r1 r2 = (i : ℤ) ∧ (Q1 i || Q2 i) = true
        ∧ ∀ j, (Q1 j || Q2 j) = true → j ≤ i) := by
  rcases h1 with ⟨hr1, hq1⟩ | ⟨i1, hr1, hq1, hm1⟩ <;>
    rcases h2 with ⟨hr2, hq2⟩ | ⟨i2, hr2, hq2, hm2⟩
  · left
    exact ⟨by rw [hr1, hr2, max_self], fun j => by rw [hq1 j, hq2 j]; rfl⟩
  · right
    refine ⟨i2, by rw [hr1, hr2]; exact max_eq_right (by omega), by rw [hq2]; simp,
      fun j hj => ?_⟩
    rw [Bool.or_eq_true] at hj
    rcases hj with hj | hj
    · rw [hq1 j] at hj; cases hj
    · exact hm2 j hj
  · right
    refine ⟨i1, by rw [hr1, hr2]; exact max_eq_left (by omega), by rw [hq1]; simp,
      fun j hj => ?_⟩
    rw [Bool.or_eq_true] at hj
    rcases hj with hj | hj
    · exact hm1 j hj
    · rw [hq2 j] at hj; cases hj
  · right
    refine ⟨max i1 i2, by rw [hr1, hr2, Nat.cast_max], ?_, fun j hj => ?_⟩
    · rcases le_total i1 i2 with h | h
      · rw [max_eq_right h, hq2]; simp
      · rw [max_eq_left h, hq1]; simp
    · rw [Bool.or_eq_true] at hj
      rcases hj with hj | hj
      · exact le_trans (hm1 j hj) (le_max_left _ _)
      · exact le_trans (hm2 j hj) (le_max_right _ _)

/-- Relates the code's decision (compare the last-occurrence value with
the midpoint) with the spec's decision (last position that is an
occurrence AND lies past the midpoint). -/
theorem lastBelow_vs_lastVal (Q P : ℕ → Bool) (n cs : ℕ) (r : ℤ)
    (hP : ∀ i, P i = (Q i && decide (2 * i > cs)))
    (hQn : ∀ j, Q j = true → j < n)
    (hr : (r = -1 ∧ ∀ j, Q j = false)
        ∨ (∃ i : ℕ, r = (i : ℤ) ∧ Q i = true ∧ ∀ j, Q j = true → j ≤ i)) :
    (2 * r > (cs : ℤ) → ∃ b : ℕ, r = (b : ℤ) ∧ lastBelow P n = some b)
    ∧ (¬ 2 * r > (cs : ℤ) → lastBelow P n = none) := by
  constructor
  · intro hgt
    rcases hr with ⟨hr1, _⟩ | ⟨i, hri, hqi, hmi⟩
    · rw [hr1] at hgt; omega
    · refine ⟨i, hri, ?_⟩
      have hp : P i = true := by
        rw [hP, hqi, Bool.true_and, decide_eq_true_eq]
        rw [hri] at hgt
        omega
      obtain ⟨b, hb⟩ := lastBelow_isSome P n i (hQn i hqi) hp
      obtain ⟨hpb, _, hmax⟩ := lastBelow_eq_some P n b hb
      rw [hP, Bool.and_eq_true] at hpb
      have hbi : b = i :=
        le_antisymm (hmi b hpb.1) (hmax i (hQn i hqi) hp)
      rw [hbi] at hb
      exact hb
  · intro hle
    cases hlb : lastBelow P n with
    | none => rfl
    | some b =>
      obtain ⟨hpb, _, _⟩ := lastBelow_eq_some P n b hlb
      rw [hP, Bool.and_eq_true, decide_eq_true_eq] at hpb
      obtain ⟨hQb, hbcs⟩ := hpb
      rcases hr with ⟨_, hq⟩ | ⟨i, hri, _, hmi⟩
      · rw [hq b] at hQb; cases hQb
      · have := hmi b hQb
        rw [hri] at hle
        omega

/-- The spec's sentence boundary is exactly an occurrence of one of the
two patterns the code searches for. -/
theorem sentenceBoundary_iff_matches (s : List Char) (i : ℕ) :
    sentenceBoundaryAt s i
      ↔ (matchesAt s ['.', ' '] i = true ∨ matchesAt s ['\n'] i = true) := by
  unfold sentenceBoundaryAt
  rw [matchesAt_pair, matchesAt_single]

/-! ## Theorems: advance rule and boundary snapping (C3, C4) -/

/-- C3 counterexample: chunking `"abcd\nefgh"` with `chunkSize = 6`,
`overlap = 1`, the first iteration snaps the window `"abcd\ne"` to
`"abcd\n"` and stores the trimmed chunk text `"abcd"` (length 4), but
the next cursor is `0 + 5 - 1 = 4`, not
`cursor + (length of the emitted chunk text) - overlap = 0 + 4 - 1 = 3`:
the advance uses the untrimmed window length, not the emitted chunk
text's length. -/
theorem c3_advance_rule_counterexample :
    emittedWindow 6 "abcd\nefgh".toList 0 = "abcd\n".toList
    ∧ jsTrim (emittedWindow 6 "abcd\nefgh".toList 0) = "abcd".toList
    ∧ nextCursor 6 1 "abcd\nefgh".toList 0 = 4
    ∧ 0 + ((jsTrim (emittedWindow 6 "abcd\nefgh".toList 0)).length : ℤ) - 1 ≠ 4 := by
  decide

/-- C3 amended: the next cursor equals the current cursor plus the
length of the truncated window text BEFORE trimming, minus the overlap
(the stored chunk content is the trim of that window, so its length can
be smaller, as the counterexample shows); consequently the last
`overlap` characters of the untrimmed window reappear at the start of
the next candidate window. -/
theorem c3_advance_rule_amended (cs ov : ℕ) (content : List Char) (start : ℤ)
    (h0 : 0 ≤ start) (h1 : start < (content.length : ℤ))
    (hov : ov ≤ (emittedWindow cs content start).length) (hcs : ov ≤ cs) :
    nextCursor cs ov content start
        = start + ((emittedWindow cs content start).length : ℤ) - (ov : ℤ)
    ∧ (emittedWindow cs content start).drop ((emittedWindow cs content start).length - ov)
        = (windowRaw cs content (nextCursor cs ov content start)).take ov := by
  obtain ⟨hslice, hbound⟩ := emittedWindow_eq_drop_take cs content start h0 (le_of_lt h1)
  refine ⟨rfl, ?_⟩
  have hnext : nextCursor cs ov content start
      = ((start.toNat + (emittedWindow cs content start).length - ov : ℕ) : ℤ) := by
    unfold nextCursor
    omega
  have h0' : 0 ≤ nextCursor cs ov content start := by
    rw [hnext]
    exact Int.ofNat_nonneg _
  have h1' : nextCursor cs ov content start ≤ (content.length : ℤ) := by
    rw [hnext]
    omega
  have hraw := windowRaw_eq cs content (nextCursor cs ov content start) h0' h1'
  have hminlb : nextCursor cs ov content start + (ov : ℤ)
      ≤ min (nextCursor cs ov content start + (cs : ℤ)) (content.length : ℤ) := by
    apply le_min
    · omega
    · rw [hnext]
      omega
  have hnN : (nextCursor cs ov content start).toNat
      = start.toNat + (emittedWindow cs content start).length - ov := by
    rw [hnext]
    omega
  have hw2 : ov ≤ (min (nextCursor cs ov content start + (cs : ℤ))
      (content.length : ℤ)).toNat - (nextCursor cs ov content start).toNat := by
    omega
  rw [hraw, hnN]
  have hgoal := overlap_slice_eq content start.toNat (emittedWindow cs content start).length
    ov ((min (nextCursor cs ov content start + (cs:ℤ)) (content.length : ℤ)).toNat
        - (start.toNat + (emittedWindow cs content start).length - ov)) hov (hnN ▸ hw2)
  rw [← hslice] at hgoal
  exact hgoal

/-- C3 amended witness: the amended advance rule evaluated on the
counterexample document at the first iteration. -/
theorem c3_advance_rule_amended_witness :
    nextCursor 6 1 "abcd\nefgh".toList 0
        = 0 + ((emittedWindow 6 "abcd\nefgh".toList 0).length : ℤ) - (1 : ℤ)
    ∧ (emittedWindow 6 "abcd\nefgh".toList 0).drop
          ((emittedWindow 6 "abcd\nefgh".toList 0).length - 1)
        = (windowRaw 6 "abcd\nefgh".toList (nextCursor 6 1 "abcd\nefgh".toList 0)).take 1 :=
  c3_advance_rule_amended 6 1 "abcd\nefgh".toList 0 (by decide) (by decide) (by decide)
    (by decide)

/-- C4 counterexample: with `chunkSize = 4` and document `"ab\ncdef"`,
the first window `"ab\nc"` ends strictly before the document's end and
has a newline boundary at index 2, exactly AT the midpoint
(`2 = 4/2`).  The claim's rule truncates right after it (`"ab\n"`), but
the code's strict comparison `breakPoint > chunkSize/2` rejects it and
keeps the full window `"ab\nc"`. -/
theorem c4_boundary_rule_counterexample :
    min ((0:ℤ) + 4) (("ab\ncdef".toList.length : ℤ)) < ("ab\ncdef".toList.length : ℤ)
    ∧ windowRaw 4 "ab\ncdef".toList 0 = "ab\nc".toList
    ∧ sentenceBoundaryAt "ab\nc".toList 2 ∧ 2 * 2 ≥ 4
    ∧ specTruncateAtOrAfter 4 "ab\nc".toList = "ab\n".toList
    ∧ emittedWindow 4 "ab\ncdef".toList 0 = "ab\nc".toList
    ∧ emittedWindow 4 "ab\ncdef".toList 0
        ≠ specTruncateAtOrAfter 4 (windowRaw 4 "ab\ncdef".toList 0) := by
  decide

/-- C4 amended: for every non-final window, the emitted chunk is the
window truncated right after the last sentence-ending boundary
(`". "` or newline) when that boundary lies STRICTLY AFTER the window
midpoint `chunkSize/2`; otherwise truncated at the last space strictly
after the midpoint; otherwise the full window is kept (hard cut): the
code's `windowTruncate` coincides with the spec-worded rule under the
strict comparison. -/
theorem c4_boundary_rule_amended (cs : ℕ) (s : List Char) :
    windowTruncate cs s = specTruncateStrictlyAfter cs s := by
  have hps := jsLastIndexOf_spec s ['.', ' '] (by simp)
  have hnl := jsLastIndexOf_spec s ['\n'] (by simp)
  have hsp := jsLastIndexOf_spec s [' '] (by simp)
  have hboolB : ∀ i, decide (sentenceBoundaryAt s i)
      = (matchesAt s ['.', ' '] i || matchesAt s ['\n'] i) := by
    intro i
    by_cases h : sentenceBoundaryAt s i
    · rcases (sentenceBoundary_iff_matches s i).mp h with h2 | h2 <;> simp [h, h2]
    · have h2 : ¬ (matchesAt s ['.', ' '] i = true ∨ matchesAt s ['\n'] i = true) :=
        fun hc => h ((sentenceBoundary_iff_matches s i).mpr hc)
      push_neg at h2
      simp [h, h2.1, h2.2]
  have hboolS : ∀ i, decide (s[i]? = some ' ') = matchesAt s [' '] i := by
    intro i
    cases hm : matchesAt s [' '] i with
    | true => simp [(matchesAt_single s ' ' i).mp hm]
    | false =>
      have : ¬ s[i]? = some ' ' := fun hc => by
        rw [(matchesAt_single s ' ' i).mpr hc] at hm
        cases hm
      simp [this]
  have hQBn : ∀ j, (matchesAt s ['.', ' '] j || matchesAt s ['\n'] j) = true →
      j < s.length := by
    intro j hj
    rw [Bool.or_eq_true] at hj
    rcases hj with h | h
    · exact matchesAt_lt_length s _ j (by simp) h
    · exact matchesAt_lt_length s _ j (by simp) h
  have hkeyB := lastBelow_vs_lastVal
    (fun j => matchesAt s ['.', ' '] j || matchesAt s ['\n'] j)
    (fun i => decide (sentenceBoundaryAt s i) && decide (2 * i > cs))
    s.length cs (max (jsLastIndexOf s ['.', ' ']) (jsLastIndexOf s ['\n']))
    (fun i => by dsimp only; rw [hboolB i]) hQBn
    (lastVal_max (matchesAt s ['.', ' ']) (matchesAt s ['\n']) _ _ hps hnl)
  have hkeyS := lastBelow_vs_lastVal (fun j => matchesAt s [' '] j)
    (fun i => decide (s[i]? = some ' ') && decide (2 * i > cs))
    s.length cs (jsLastIndexOf s [' '])
    (fun i => by dsimp only; rw [hboolS i])
    (fun j hj => matchesAt_lt_length s _ j (by simp) hj) hsp
  unfold windowTruncate specTruncateStrictlyAfter
  dsimp only
  by_cases hB : 2 * max (jsLastIndexOf s ['.', ' ']) (jsLastIndexOf s ['\n']) > (cs : ℤ)
  · rw [if_pos hB]
    obtain ⟨b, hbv, hbs⟩ := hkeyB.1 hB
    rw [hbs, hbv, jsSubstring_zero_right s _ (by omega)]
    have hcast : ((b : ℤ) + 1).toNat = b + 1 := by omega
    rw [hcast]
  · rw [if_neg hB, hkeyB.2 hB]
    dsimp only
    by_cases hS : 2 * jsLastIndexOf s [' '] > (cs : ℤ)
    · rw [if_pos hS]
      obtain ⟨sp, hspv, hsps⟩ := hkeyS.1 hS
      rw [hsps, hspv, jsSubstring_zero_right s _ (by omega)]
      have hcast : ((sp : ℤ)).toNat = sp := by omega
      rw [hcast]
    · rw [if_neg hS, hkeyS.2 hS]

/-! ## Theorems: conversation store (C7, C8, C9, C10) -/

/-- C7: for every conversation identifier, `generateResponseWithHistory`
replaces — does not append to — any previously stored history for it:
after the call the stored history is exactly the caller-supplied message
sequence followed by the single newly generated assistant reply,
regardless of what was stored before. -/
theorem c7_generateResponseWithHistory_replaces (reply : String) (messages : List Message)
    (cid : String) (st : ConversationMap) :
    GeminiProvider.getHistory
        ((GeminiProvider.generateResponseWithHistory reply messages (some cid) st).2) cid
      = messages ++ [⟨Role.assistant, reply⟩] := by
  simp [GeminiProvider.generateResponseWithHistory, GeminiProvider.addToHistory,
    GeminiProvider.getHistory, mapSet]

/-- C8: `generateResponse` without a conversation identifier (and hence
`ask` without a `conversationId`) leaves the conversation-history map
entirely unchanged: every identifier's stored history before the call
equals its stored history after. -/
theorem c8_stateless_generation (reply prompt question : String)
    (resp : Option (List PineconeMatch)) (st : ConversationMap) :
    (GeminiProvider.generateResponse reply prompt none st).2 = st
    ∧ (Assistant.ask reply question resp none st).2 = st
    ∧ ∀ id : String,
        GeminiProvider.getHistory ((GeminiProvider.generateResponse reply prompt none st).2) id
          = GeminiProvider.getHistory st id := by
  exact ⟨rfl, rfl, fun _ => rfl⟩

/-- C9: `getHistory` on an identifier with no stored entry returns the
empty sequence (never an error); `clearHistory` followed by `getHistory`
on the same identifier returns the empty sequence; and `clearHistory` on
an absent identifier leaves the map unchanged (idempotent). -/
theorem c9_clear_get_empty (st : ConversationMap) (id : String) :
    (st id = none → GeminiProvider.getHistory st id = [])
    ∧ GeminiProvider.getHistory (GeminiProvider.clearHistory st id) id = []
    ∧ (st id = none → GeminiProvider.clearHistory st id = st)
    ∧ GeminiProvider.clearHistory (GeminiProvider.clearHistory st id) id
        = GeminiProvider.clearHistory st id := by
  refine ⟨fun h => ?_, ?_, fun h => ?_, ?_⟩
  · simp [GeminiProvider.getHistory, h]
  · simp [GeminiProvider.getHistory, GeminiProvider.clearHistory, mapDelete]
  · funext k
    by_cases hk : k = id
    · subst hk
      simp [GeminiProvider.clearHistory, mapDelete, h]
    · simp [GeminiProvider.clearHistory, mapDelete, hk]
  · funext k
    by_cases hk : k = id <;> simp [GeminiProvider.clearHistory, mapDelete, hk]

/-- C9 witness: on the fresh empty map, `getHistory "chat1"` is empty and
`clearHistory "chat1"` is the identity. -/
theorem c9_clear_get_empty_witness :
    GeminiProvider.getHistory emptyConversationMap "chat1" = []
    ∧ GeminiProvider.clearHistory emptyConversationMap "chat1" = emptyConversationMap :=
  ⟨(c9_clear_get_empty emptyConversationMap "chat1").1 rfl,
   (c9_clear_get_empty emptyConversationMap "chat1").2.2.1 rfl⟩

/-- C10: `ask` with a conversation identifier appends, as the user turn,
the entire composed prompt — instruction text, context block and
question — not the bare question (the prompt is never equal to the bare
question), followed by the assistant reply. -/
theorem c10_ask_stores_full_prompt (reply question : String)
    (resp : Option (List PineconeMatch)) (cid : String) (st : ConversationMap) :
    GeminiProvider.getHistory ((Assistant.ask reply question resp (some cid) st).2) cid
      = GeminiProvider.getHistory st cid
        ++ [⟨Role.user,
              Assistant.buildPrompt question (Assistant.buildContext (Assistant.query resp))⟩,
            ⟨Role.assistant, reply⟩]
    ∧ ∀ q c : String, Assistant.buildPrompt q c ≠ q := by
  constructor
  · simp [Assistant.ask, GeminiProvider.generateResponse, GeminiProvider.addToHistory,
      GeminiProvider.getHistory, mapSet]
  · intro q c h
    have hl := congrArg String.length h
    simp only [Assistant.buildPrompt, String.length_append] at hl
    have h9 : ("\n\nAnswer:" : String).length = 9 := rfl
    omega

/-- C10 witness: one `ask` on the fresh provider with conversation id
`"c1"` stores the composed prompt (not the bare question) as the user
turn, and on a sample prompt the composed prompt differs from the bare
question. -/
theorem c10_ask_stores_full_prompt_witness :
    GeminiProvider.getHistory
        ((Assistant.ask "ans" "Q" none (some "c1") emptyConversationMap).2) "c1"
      = GeminiProvider.getHistory emptyConversationMap "c1"
        ++ [⟨Role.user,
              Assistant.buildPrompt "Q" (Assistant.buildContext (Assistant.query none))⟩,
            ⟨Role.assistant, "ans"⟩]
    ∧ Assistant.buildPrompt "Q" "ctx" ≠ "Q" :=
  ⟨(c10_ask_stores_full_prompt "ans" "Q" none "c1" emptyConversationMap).1,
   (c10_ask_stores_full_prompt "ans" "Q" none "c1" emptyConversationMap).2 "Q" "ctx"⟩

/-! ## Theorems: retrieval formatting and context assembly (C5, C6) -/

/-- C5: the retriever returns the index's matches in the order the index
returned them (no re-sorting): result `i` is exactly match `i`, with the
score defaulting to 0 when absent and the content read from the
metadata `content` field, defaulting to the empty string. -/
theorem c5_query_preserves_order (resp : Option (List PineconeMatch)) :
    (Assistant.query resp).length = (resp.getD []).length
    ∧ ∀ i : ℕ, i < (resp.getD []).length →
        (Assistant.query resp).get? i = ((resp.getD []).get? i).map fun m =>
          ({ id := m.id
             score := m.score.getD 0
             content := (m.metadata.bind fun md => List.lookup "content" md).getD ""
             metadata := m.metadata.getD [] } : QueryResult) := by
  refine ⟨by simp [Assistant.query], fun i _ => ?_⟩
  simp [Assistant.query, List.get?_eq_getElem?, List.getElem?_map]

/-- C5 witness: on a two-match response whose second match has no score
and no metadata, the second result has score 0 and empty content. -/
theorem c5_query_preserves_order_witness :
    (1 < (some [PineconeMatch.mk "m1" (some 1) (some [("content", "alpha")]),
                PineconeMatch.mk "m2" none none] |>.getD []).length)
    ∧ (Assistant.query (some [PineconeMatch.mk "m1" (some 1) (some [("content", "alpha")]),
                              PineconeMatch.mk "m2" none none])).get? 1
        = some (QueryResult.mk "m2" 0 "" []) := by
  refine ⟨by decide, ?_⟩
  have h := (c5_query_preserves_order
    (some [PineconeMatch.mk "m1" (some 1) (some [("content", "alpha")]),
           PineconeMatch.mk "m2" none none])).2 1 (by decide)
  rw [h]
  rfl

/-- C6: the context block placed into the prompt (and into the
history-aware system message) is exactly the retrieved passages'
contents in retrieval-rank order, each prefixed with a 1-based
`Source N` label, separated by blank lines, with no re-ranking, no
deduplication and no capping: there is one part per source, part `i` is
the label followed by source `i`'s full content, and both entry points
embed the joined block verbatim. -/
theorem c6_context_block (sources : List QueryResult) (question : String) :
    (Assistant.contextParts sources).length = sources.length
    ∧ (∀ i : ℕ, i < sources.length →
        (Assistant.contextParts sources).get? i = (sources.get? i).map fun s =>
          "[Source " ++ toString (i + 1) ++ "] " ++ s.content)
    ∧ Assistant.buildContext sources
        = String.intercalate "\n\n" (Assistant.contextParts sources)
    ∧ Assistant.buildPrompt question (Assistant.buildContext sources)
        = "You are a helpful assistant. Answer the following question based on the provided context. If the answer cannot be found in the context, say so.\n\nContext:\n"
          ++ Assistant.buildContext sources ++ "\n\nQuestion: " ++ question ++ "\n\nAnswer:"
    ∧ Assistant.systemMessageContent (Assistant.buildContext sources)
        = "You are a helpful assistant. Answer questions based on the following context:\n\n"
          ++ Assistant.buildContext sources
          ++ "\n\nIf the answer cannot be found in the context, say so." := by
  refine ⟨by simp [Assistant.contextParts], fun i _ => ?_, rfl, rfl, rfl⟩
  simp only [Assistant.contextParts, List.get?_eq_getElem?, List.getElem?_map,
    List.getElem?_enum]
  cases sources[i]? <;> rfl

/-- C6 witness: with two retrieved passages, part 1 of the context block
is the second passage labelled `Source 2`. -/
theorem c6_context_block_witness :
    (1 < ([QueryResult.mk "a" 1 "alpha" [], QueryResult.mk "b" 0 "beta" []] : List QueryResult).length)
    ∧ (Assistant.contextParts [QueryResult.mk "a" 1 "alpha" [], QueryResult.mk "b" 0 "beta" []]).get? 1
        = some "[Source 2] beta" := by
  refine ⟨by decide, ?_⟩
  have h := (c6_context_block [QueryResult.mk "a" 1 "alpha" [], QueryResult.mk "b" 0 "beta" []]
    "q").2.1 1 (by decide)
  rw [h]
  rfl

